import Mathlib

/-!
Verification of the `mcp-server-go` repository: a shallow embedding of its
protocol codec (`internal/protocol`), context store (`internal/state`) and
the connection handler's message dispatch (`internal/handler`), together
with theorems settling the specification's claims about them.

Go strings are modelled as `List Char`; Go maps (`map[string]string`,
`map[string]*ClientContext`) as association lists with unique keys, where
map assignment `m[k] = v` is `insertParam` (replace in place if the key is
bound, otherwise append).
-/

namespace MCP

abbrev Str := List Char

/-- The set of characters trimmed by Go's `strings.TrimSpace`
(`unicode.IsSpace`): ASCII whitespace plus the Unicode White_Space
code points. -/
def goIsSpace (c : Char) : Bool :=
  c ∈ ['\t', '\n', '\u000B', '\u000C', '\r', ' ', '\u0085', '\u00A0',
       '\u1680', '\u2000', '\u2001', '\u2002', '\u2003', '\u2004', '\u2005',
       '\u2006', '\u2007', '\u2008', '\u2009', '\u200A', '\u2028', '\u2029',
       '\u202F', '\u205F', '\u3000']

def trimLeft (s : Str) : Str := s.dropWhile goIsSpace

def trimRight (s : Str) : Str := (s.reverse.dropWhile goIsSpace).reverse

/-- Go `strings.TrimSpace`. -/
def trimSpace (s : Str) : Str := trimRight (trimLeft s)

/-- Go `strings.SplitN(s, sep, 2)`: `none` when `sep` does not occur
(Go returns a one-element slice there), otherwise the text before the
first `sep` and everything after it. -/
def splitN2 (sep : Char) : Str → Option (Str × Str)
  | [] => none
  | c :: cs =>
    if c = sep then some ([], cs)
    else
      match splitN2 sep cs with
      | none => none
      | some (a, b) => some (c :: a, b)

/-- Go `strings.Split(s, sep)` for a one-character separator:
`Split "" = [""]`, `Split "a;b" = ["a","b"]`, `Split ";" = ["",""]`. -/
def splitChar (sep : Char) : Str → List Str
  | [] => [[]]
  | c :: cs =>
    if c = sep then [] :: splitChar sep cs
    else
      match splitChar sep cs with
      | [] => [[c]]
      | p :: ps => (c :: p) :: ps

/-- Go `strings.Join(parts, sep)` for a one-character separator. -/
def joinSep (sep : Char) : List Str → Str
  | [] => []
  | [p] => p
  | p :: q :: rest => p ++ sep :: joinSep sep (q :: rest)

/-- Go map assignment `m[k] = v` on an association list with unique keys:
replace the binding in place when `k` is bound, otherwise append. -/
def insertParam {α : Type} (ps : List (Str × α)) (k : Str) (v : α) :
    List (Str × α) :=
  if ps.any (fun p => p.1 = k) then
    ps.map (fun p => if p.1 = k then (k, v) else p)
  else ps ++ [(k, v)]

/-- Go map lookup `v, ok := m[k]` on an association list. -/
def lookupParam {α : Type} (ps : List (Str × α)) (k : Str) : Option α :=
  match ps with
  | [] => none
  | p :: rest => if p.1 = k then some p.2 else lookupParam rest k

/-- `internal/protocol` message-type constants. -/
def TypePing : Str := ['P', 'I', 'N', 'G']

def TypePong : Str := ['P', 'O', 'N', 'G']

def TypeContext : Str := ['C', 'O', 'N', 'T', 'E', 'X', 'T']

def TypeAck : Str := ['A', 'C', 'K']

def TypeError : Str := ['E', 'R', 'R', 'O', 'R']

/-- `protocol.Message`: a type tag and a parameter map (association list
with unique keys, Go map order being irrelevant). -/
structure Message where
  type : Str
  Params : List (Str × Str)
deriving DecidableEq, Repr

/-- The parameter-parsing loop of `protocol.Parse` (lines 61-77): split
each candidate pair on the first `=`, trim key and value, reject a pair
with no `=` or an empty trimmed key, store with `params[key] = value`. -/
def parsePairs : List Str → List (Str × Str) → Option (List (Str × Str))
  | [], acc => some acc
  | p :: rest, acc =>
    match splitN2 '=' p with
    | none => none
    | some kv =>
      let key := trimSpace kv.1
      let value := trimSpace kv.2
      if key = [] then none
      else parsePairs rest (insertParam acc key value)

/-- `protocol.Parse`: trim; reject empty; split on the first `:`; reject a
missing separator or an empty trimmed type; parse the parameter section
when it is non-empty. -/
def Parse (raw : Str) : Option Message :=
  let r := trimSpace raw
  if r = [] then none
  else
    match splitN2 ':' r with
    | none => none
    | some tp =>
      let msgType := trimSpace tp.1
      if msgType = [] then none
      else if tp.2 = [] then some ⟨msgType, []⟩
      else
        match parsePairs (splitChar ';' tp.2) [] with
        | none => none
        | some ps => some ⟨msgType, ps⟩

/-- `protocol.Message.Format`: `TYPE:key1=value1;key2=value2;...`, the
parameters rendered in the order of the association list (Go ranges over
the map in unspecified order; the list order is the representative). -/
def Message.Format (m : Message) : Str :=
  m.type ++ ':' :: joinSep ';' (m.Params.map (fun p => p.1 ++ '=' :: p.2))

/-- `protocol.ValidateMessageType`: membership in the five-key map of
valid types. -/
def ValidateMessageType (msgType : Str) : Bool :=
  decide (msgType ∈ [TypePing, TypePong, TypeContext, TypeAck, TypeError])

/-- `state.ContextStore`: a map clientID → per-client values
(`state.ClientContext.Values`), both maps as association lists. -/
structure ContextStore where
  contexts : List (Str × List (Str × Str))
deriving DecidableEq, Repr

/-- `state.NewContextStore`. -/
def NewContextStore : ContextStore := ⟨[]⟩

/-- `ContextStore.Get`: `("", false)` when the client or the key is
absent, otherwise the stored value with `true`. -/
def ContextStore.get (s : ContextStore) (clientID key : Str) : Str × Bool :=
  match lookupParam s.contexts clientID with
  | none => ([], false)
  | some values =>
    match lookupParam values key with
    | none => ([], false)
    | some v => (v, true)

/-- `ContextStore.GetAll`: the client's value map, `none` when the client
is absent (the Go copy made for the caller is irrelevant in a pure model). -/
def ContextStore.getAll (s : ContextStore) (clientID : Str) :
    Option (List (Str × Str)) :=
  lookupParam s.contexts clientID

/-- `ContextStore.Set`: create the client's context lazily if absent, then
`client.Values[key] = value`. -/
def ContextStore.set (s : ContextStore) (clientID key value : Str) :
    ContextStore :=
  let values := (lookupParam s.contexts clientID).getD []
  ⟨insertParam s.contexts clientID (insertParam values key value)⟩

/-- `ContextStore.SetMultiple`: create the client's context lazily if
absent, then assign every pair of `values` in order. -/
def ContextStore.setMultiple (s : ContextStore) (clientID : Str)
    (values : List (Str × Str)) : ContextStore :=
  let cur := (lookupParam s.contexts clientID).getD []
  ⟨insertParam s.contexts clientID
    (values.foldl (fun acc p => insertParam acc p.1 p.2) cur)⟩

/-- `ContextStore.Remove`: return unchanged when the client is absent,
otherwise delete the key from that client's values. -/
def ContextStore.remove (s : ContextStore) (clientID key : Str) :
    ContextStore :=
  match lookupParam s.contexts clientID with
  | none => s
  | some values =>
    ⟨insertParam s.contexts clientID
      (values.filter (fun p => decide (p.1 ≠ key)))⟩

/-- `ContextStore.Clear`: delete the whole client entry. -/
def ContextStore.clear (s : ContextStore) (clientID : Str) : ContextStore :=
  ⟨s.contexts.filter (fun p => decide (p.1 ≠ clientID))⟩

/-- `ContextStore.ListClients`. -/
def ContextStore.listClients (s : ContextStore) : List Str :=
  s.contexts.map (fun p => p.1)

/-- `ContextStore.QueryClients`: every client whose context has `key` set
to exactly `value`. -/
def ContextStore.queryClients (s : ContextStore) (key value : Str) :
    List Str :=
  (s.contexts.filter
    (fun p => decide (lookupParam p.2 key = some value))).map (fun p => p.1)

/-- Well-formedness of the store model: client IDs are unique, as they are
in the Go map `contexts map[string]*ClientContext`. -/
def ContextStore.WF (s : ContextStore) : Prop :=
  (s.contexts.map (fun p => p.1)).Nodup

/-- `fmt.Sprintf("%d", n)` for the Unix time in `handlePing`. -/
def intToStr (n : Int) : Str := (toString n).data

def strTime : Str := ['t', 'i', 'm', 'e']

def strStatus : Str := ['s', 't', 'a', 't', 'u', 's']

def strOk : Str := ['o', 'k']

/-- `handler.Connection.handleMessage` together with the branch bodies
`handlePing` and `handleContextUpdate`: given the connection id, the
current Unix time and the store, return the updated store and the list of
messages passed to `Send` (in order). PING → one PONG with the time;
CONTEXT → `store.Set(c.id, key, value)` for every parameter, then one
ACK with `status=ok`; anything else → log only, no response. -/
def handleMessage (connID : Str) (now : Int) (store : ContextStore)
    (msg : Message) : ContextStore × List Message :=
  if msg.type = TypePing then
    (store, [⟨TypePong, [(strTime, intToStr now)]⟩])
  else if msg.type = TypeContext then
    (msg.Params.foldl (fun st p => st.set connID p.1 p.2) store,
     [⟨TypeAck, [(strStatus, strOk)]⟩])
  else (store, [])

/-- A candidate pair the parameter loop of `Parse` rejects: no `=`, or an
empty key after trimming. -/
def pairBad (p : Str) : Bool :=
  match splitN2 '=' p with
  | none => true
  | some kv => decide (trimSpace kv.1 = [])

/-- The (trimmed) key a candidate pair would parse to: the text before its
first `=`, trimmed. -/
def pairKey (p : Str) : Str := trimSpace (((splitN2 '=' p).getD ([], [])).1)

/-- The (trimmed) value a candidate pair would parse to: the text after
its first `=`, trimmed. -/
def pairVal (p : Str) : Str := trimSpace (((splitN2 '=' p).getD ([], [])).2)

/-- The specification's characterization of when `Parse` fails (stated
from the spec's words, to be compared with `Parse`): the trimmed input is
empty or contains no `:`, the type portion is empty after trimming, or the
non-empty parameter text contains a pair with no `=` or an empty key. -/
def specParseRejects (raw : Str) : Bool :=
  match splitN2 ':' (trimSpace raw) with
  | none => true
  | some tp =>
    decide (trimSpace tp.1 = []) ||
    (!decide (tp.2 = []) && (splitChar ';' tp.2).any pairBad)

/-- The value `Parse` stores under key `k`, `none` when `Parse` fails or
leaves the key unbound. -/
def parsedLookup (raw k : Str) : Option Str :=
  (Parse raw).bind (fun m => lookupParam m.Params k)

end MCP


namespace MCP

/-! ### Lemmas about trimming -/

theorem trimRight_eq_rdropWhile (s : Str) : trimRight s = s.rdropWhile goIsSpace := rfl

theorem trimLeft_suffix (s : Str) : trimLeft s <:+ s := List.dropWhile_suffix _

theorem length_trimLeft_le (s : Str) : (trimLeft s).length ≤ s.length :=
  (trimLeft_suffix s).length_le

theorem trimRight_isPrefixOf (s : Str) : trimRight s <+: s := List.rdropWhile_prefix _ _

theorem length_trimRight_le (s : Str) : (trimRight s).length ≤ s.length :=
  (trimRight_isPrefixOf s).length_le

theorem trimLeft_eq_self_of_trimSpace (s : Str) (h : trimSpace s = s) :
    trimLeft s = s := by
  have h1 : (trimSpace s).length ≤ (trimLeft s).length := length_trimRight_le _
  have h2 : (trimLeft s).length ≤ s.length := length_trimLeft_le s
  have h0 : (trimSpace s).length = s.length := by rw [h]
  exact (trimLeft_suffix s).eq_of_length (by omega)

theorem trimRight_eq_self_of_trimSpace (s : Str) (h : trimSpace s = s) :
    trimRight s = s := by
  have h1 := trimLeft_eq_self_of_trimSpace s h
  unfold trimSpace at h
  rwa [h1] at h

theorem trimLeft_cons_of_space (c : Char) (s : Str) (h : goIsSpace c = true) :
    trimLeft (c :: s) = trimLeft s := by
  simp [trimLeft, List.dropWhile_cons, h]

theorem trimLeft_cons_of_not_space (c : Char) (s : Str) (h : goIsSpace c = false) :
    trimLeft (c :: s) = c :: s := by
  simp [trimLeft, List.dropWhile_cons, h]

theorem head_not_space_of_trimLeft (c : Char) (s : Str)
    (h : trimLeft (c :: s) = c :: s) : goIsSpace c = false := by
  by_contra hc
  rw [Bool.not_eq_false] at hc
  rw [trimLeft_cons_of_space c s hc] at h
  have := length_trimLeft_le s
  have := congrArg List.length h
  simp at this
  omega

theorem head_not_space_of_trimSpace (c : Char) (s : Str)
    (h : trimSpace (c :: s) = c :: s) : goIsSpace c = false :=
  head_not_space_of_trimLeft c s (trimLeft_eq_self_of_trimSpace _ h)

theorem last_not_space_of_trimRight (a : Str) (c : Char)
    (h : trimRight (a ++ [c]) = a ++ [c]) : goIsSpace c = false := by
  by_contra hc
  rw [Bool.not_eq_false] at hc
  unfold trimRight at h
  have hrev : (a ++ [c]).reverse = c :: a.reverse := by simp
  rw [hrev, List.dropWhile_cons, if_pos hc] at h
  have hsuf : (a.reverse.dropWhile goIsSpace).length ≤ a.length := by
    have := (List.dropWhile_suffix (l := a.reverse) goIsSpace).length_le
    simpa using this
  have hlen := congrArg List.length h
  simp at hlen
  omega

theorem last_not_space_of_trimSpace (a : Str) (c : Char)
    (h : trimSpace (a ++ [c]) = a ++ [c]) : goIsSpace c = false :=
  last_not_space_of_trimRight a c (trimRight_eq_self_of_trimSpace _ h)

theorem dropWhile_append_cons (p : Char → Bool) (a b : Str) (c : Char)
    (h : p c = false) : (a ++ c :: b).dropWhile p = a.dropWhile p ++ c :: b := by
  induction a with
  | nil => simp [List.dropWhile_cons, h]
  | cons x xs ih =>
    by_cases hx : p x
    · simp [List.dropWhile_cons, hx, ih]
    · simp [List.dropWhile_cons, hx]

theorem trimLeft_append_cons_of_not_space (c : Char) (s t : Str)
    (h : goIsSpace c = false) : trimLeft ((c :: s) ++ t) = (c :: s) ++ t := by
  simp [trimLeft, List.dropWhile_cons, h]

theorem trimRight_append_cons (a b : Str) (c : Char) (h : goIsSpace c = false) :
    trimRight (a ++ c :: b) = a ++ c :: trimRight b := by
  unfold trimRight
  have hrev : (a ++ c :: b).reverse = b.reverse ++ c :: a.reverse := by simp
  rw [hrev, dropWhile_append_cons _ _ _ _ h]
  simp

theorem trimSpace_append_colon (t rest : Str) (ht : trimSpace t = t)
    (hne : t ≠ []) (c : Char) (hc : goIsSpace c = false) :
    trimSpace (t ++ c :: rest) = t ++ c :: trimRight rest := by
  obtain ⟨x, xs, rfl⟩ := List.exists_cons_of_ne_nil hne
  have hx : goIsSpace x = false := head_not_space_of_trimSpace _ _ ht
  unfold trimSpace
  rw [trimLeft_append_cons_of_not_space _ _ _ hx,
    trimRight_append_cons _ _ _ hc]

theorem trimSpace_eq_self_of_edges (s : Str)
    (hh : ∀ c, s.head? = some c → goIsSpace c = false)
    (hl : ∀ c, s.getLast? = some c → goIsSpace c = false) :
    trimSpace s = s := by
  cases s with
  | nil => rfl
  | cons x xs =>
    have hx : goIsSpace x = false := hh x rfl
    unfold trimSpace
    rw [trimLeft_cons_of_not_space _ _ hx, trimRight_eq_rdropWhile,
      List.rdropWhile_eq_self_iff]
    intro hne hcontra
    have := hl ((x :: xs).getLast hne) (List.getLast?_eq_getLast _ hne)
    rw [this] at hcontra
    exact Bool.false_ne_true hcontra

/-! ### Lemmas about `splitN2` -/

theorem splitN2_eq_none_iff (sep : Char) (s : Str) :
    splitN2 sep s = none ↔ sep ∉ s := by
  induction s with
  | nil => simp [splitN2]
  | cons c cs ih =>
    by_cases hc : c = sep
    · subst hc; simp [splitN2]
    · simp only [splitN2, if_neg hc]
      cases h : splitN2 sep cs with
      | none =>
        have hcs := ih.mp h
        have hcsep : sep ≠ c := fun hcontra => hc hcontra.symm
        simp [List.mem_cons, hcs, hcsep]
      | some ab =>
        have hcs : sep ∈ cs := by
          by_contra hn
          rw [ih.mpr hn] at h
          cases h
        obtain ⟨a, b⟩ := ab
        simp [List.mem_cons, hcs]

theorem splitN2_append (sep : Char) (a b : Str) (h : sep ∉ a) :
    splitN2 sep (a ++ sep :: b) = some (a, b) := by
  induction a with
  | nil => simp [splitN2]
  | cons x xs ih =>
    have hx : x ≠ sep := by
      intro hcontra; exact h (hcontra ▸ List.mem_cons_self x xs)
    have hxs : sep ∉ xs := fun hm => h (List.mem_cons_of_mem x hm)
    simp only [List.cons_append, splitN2, if_neg hx, List.append_eq, ih hxs]

theorem splitN2_some_structure (sep : Char) (s a b : Str)
    (h : splitN2 sep s = some (a, b)) : s = a ++ sep :: b ∧ sep ∉ a := by
  induction s generalizing a with
  | nil => cases h
  | cons c cs ih =>
    by_cases hc : c = sep
    · subst hc
      simp [splitN2] at h
      obtain ⟨rfl, rfl⟩ := h
      simp
    · simp only [splitN2, if_neg hc] at h
      cases hsub : splitN2 sep cs with
      | none => rw [hsub] at h; cases h
      | some ab =>
        rw [hsub] at h
        simp only [Option.some.injEq] at h
        obtain ⟨a', b'⟩ := ab
        cases h
        obtain ⟨h1, h2⟩ := ih a' hsub
        constructor
        · simp [h1]
        · simp [List.mem_cons, h2, Ne.symm hc]

theorem splitN2_some_ne_nil (sep : Char) (s : Str) (x : Str × Str)
    (h : splitN2 sep s = some x) : s ≠ [] := by
  intro hcontra; subst hcontra; cases h

/-! ### Lemmas about `splitChar` and `joinSep` -/

theorem splitChar_ne_nil (sep : Char) (s : Str) : splitChar sep s ≠ [] := by
  cases s with
  | nil => simp [splitChar]
  | cons c cs =>
    simp only [splitChar]
    by_cases hc : c = sep
    · simp [hc]
    · simp only [if_neg hc]
      cases splitChar sep cs with
      | nil => simp
      | cons p ps => simp

theorem splitChar_no_sep (sep : Char) (p : Str) (h : sep ∉ p) :
    splitChar sep p = [p] := by
  induction p with
  | nil => rfl
  | cons c cs ih =>
    have hc : c ≠ sep := fun hcontra => h (hcontra ▸ List.mem_cons_self c cs)
    have hcs : sep ∉ cs := fun hm => h (List.mem_cons_of_mem c hm)
    simp only [splitChar, if_neg hc, ih hcs]

theorem splitChar_append_sep (sep : Char) (p t : Str) (h : sep ∉ p) :
    splitChar sep (p ++ sep :: t) = p :: splitChar sep t := by
  induction p with
  | nil => simp [splitChar]
  | cons c cs ih =>
    have hc : c ≠ sep := fun hcontra => h (hcontra ▸ List.mem_cons_self c cs)
    have hcs : sep ∉ cs := fun hm => h (List.mem_cons_of_mem c hm)
    simp only [List.cons_append, splitChar, if_neg hc, List.append_eq, ih hcs]

theorem splitChar_joinSep (sep : Char) (parts : List Str)
    (h : ∀ x ∈ parts, sep ∉ x) (hne : parts ≠ []) :
    splitChar sep (joinSep sep parts) = parts := by
  induction parts with
  | nil => exact absurd rfl hne
  | cons p rest ih =>
    cases rest with
    | nil => exact splitChar_no_sep sep p (h p (List.mem_cons_self p []))
    | cons q rs =>
      have hp : sep ∉ p := h p (List.mem_cons_self p _)
      rw [joinSep, splitChar_append_sep sep _ _ hp,
        ih (fun x hx => h x (List.mem_cons_of_mem p hx)) (by simp)]

theorem joinSep_ne_nil (sep : Char) (p : Str) (rest : List Str) (hp : p ≠ []) :
    joinSep sep (p :: rest) ≠ [] := by
  cases rest with
  | nil => simpa [joinSep]
  | cons q rs => simp [joinSep, hp]

/-! ### Lemmas about `insertParam` and `lookupParam` -/

theorem lookupParam_cons {α : Type} (p : Str × α) (rest : List (Str × α))
    (k : Str) :
    lookupParam (p :: rest) k = if p.1 = k then some p.2 else lookupParam rest k := rfl

theorem lookupParam_eq_none_iff {α : Type} (ps : List (Str × α)) (k : Str) :
    lookupParam ps k = none ↔ ∀ p ∈ ps, p.1 ≠ k := by
  induction ps with
  | nil =>
    constructor
    · intro _ p hp; cases hp
    · intro _; rfl
  | cons p rest ih =>
    rw [lookupParam_cons]
    by_cases hp : p.1 = k
    · rw [if_pos hp]
      constructor
      · intro h; cases h
      · intro h; exact absurd hp (h p (List.mem_cons_self p rest))
    · rw [if_neg hp, ih]
      constructor
      · intro h q hq
        rcases List.mem_cons.mp hq with rfl | hq'
        · exact hp
        · exact h q hq'
      · intro h q hq
        exact h q (List.mem_cons_of_mem p hq)

theorem insertParam_of_not_bound {α : Type} (ps : List (Str × α)) (k : Str)
    (v : α) (h : ∀ p ∈ ps, p.1 ≠ k) : insertParam ps k v = ps ++ [(k, v)] := by
  unfold insertParam
  rw [if_neg]
  simp only [List.any_eq_true, decide_eq_true_eq, not_exists]
  intro p hmem
  exact h p hmem.1 hmem.2

theorem lookupParam_insertParam_self {α : Type} (ps : List (Str × α))
    (k : Str) (v : α) : lookupParam (insertParam ps k v) k = some v := by
  unfold insertParam
  by_cases hb : ps.any (fun p => p.1 = k)
  · rw [if_pos hb]
    induction ps with
    | nil => cases hb
    | cons p rest ih =>
      by_cases hp : p.1 = k
      · simp only [List.map_cons, if_pos hp, lookupParam_cons]
        rw [if_pos trivial]
      · have hrest : rest.any (fun p => p.1 = k) := by
          rw [List.any_cons] at hb
          rcases Bool.or_eq_true_iff.mp hb with h1 | h1
          · exact absurd (of_decide_eq_true h1) hp
          · exact h1
        simp only [List.map_cons, if_neg hp]
        rw [lookupParam_cons, if_neg hp]
        exact ih hrest
  · rw [if_neg hb]
    induction ps with
    | nil => rw [List.nil_append, lookupParam_cons, if_pos rfl]
    | cons p rest ih =>
      have hp : ¬p.1 = k := by
        intro hcontra
        exact hb (by simp [List.any_cons, hcontra])
      have hrest : ¬rest.any (fun p => p.1 = k) := by
        intro hcontra
        exact hb (by simp [List.any_cons, hcontra])
      simp only [List.cons_append]
      rw [lookupParam_cons, if_neg hp]
      exact ih hrest

theorem lookupParam_insertParam_ne {α : Type} (ps : List (Str × α))
    (k k' : Str) (v : α) (h : k' ≠ k) :
    lookupParam (insertParam ps k v) k' = lookupParam ps k' := by
  unfold insertParam
  by_cases hb : ps.any (fun p => p.1 = k)
  · rw [if_pos hb]
    clear hb
    induction ps with
    | nil => rfl
    | cons p rest ih =>
      by_cases hp : p.1 = k
      · have hp' : ¬k = k' := fun hcontra => h hcontra.symm
        have hp'' : ¬p.1 = k' := by rw [hp]; exact hp'
        simp only [List.map_cons, if_pos hp]
        rw [lookupParam_cons, lookupParam_cons, if_neg hp', if_neg hp'']
        exact ih
      · simp only [List.map_cons, if_neg hp]
        rw [lookupParam_cons, lookupParam_cons]
        by_cases hpk : p.1 = k'
        · rw [if_pos hpk, if_pos hpk]
        · rw [if_neg hpk, if_neg hpk]
          exact ih
  · rw [if_neg hb]
    induction ps with
    | nil =>
      rw [List.nil_append, lookupParam_cons, if_neg (fun hc => h hc.symm)]
    | cons p rest ih =>
      have hrest : ¬rest.any (fun p => p.1 = k) := by
        intro hcontra
        exact hb (by simp [List.any_cons, hcontra])
      simp only [List.cons_append]
      rw [lookupParam_cons, lookupParam_cons]
      by_cases hpk : p.1 = k'
      · rw [if_pos hpk, if_pos hpk]
      · rw [if_neg hpk, if_neg hpk]
        exact ih hrest

theorem keys_insertParam_of_bound {α : Type} (ps : List (Str × α)) (k : Str)
    (v : α) (h : ps.any (fun p => p.1 = k)) :
    (insertParam ps k v).map (fun p => p.1) = ps.map (fun p => p.1) := by
  unfold insertParam
  rw [if_pos h, List.map_map]
  apply List.map_congr_left
  intro p _
  by_cases hp : p.1 = k
  · simp [hp]
  · simp [hp]

theorem keys_insertParam_of_not_bound {α : Type} (ps : List (Str × α)) (k : Str)
    (v : α) (h : ¬ps.any (fun p => p.1 = k)) :
    (insertParam ps k v).map (fun p => p.1) = ps.map (fun p => p.1) ++ [k] := by
  unfold insertParam
  rw [if_neg h]
  simp

theorem nodup_keys_insertParam {α : Type} (ps : List (Str × α)) (k : Str)
    (v : α) (h : (ps.map (fun p => p.1)).Nodup) :
    ((insertParam ps k v).map (fun p => p.1)).Nodup := by
  by_cases hb : ps.any (fun p => p.1 = k)
  · rw [keys_insertParam_of_bound ps k v hb]
    exact h
  · rw [keys_insertParam_of_not_bound ps k v hb]
    rw [List.nodup_append]
    refine ⟨h, List.nodup_singleton k, ?_⟩
    intro x hx
    simp only [List.mem_map] at hx
    obtain ⟨p, hp, rfl⟩ := hx
    simp only [List.mem_singleton]
    intro hcontra
    exact hb (by simp only [List.any_eq_true, decide_eq_true_eq]; exact ⟨p, hp, hcontra⟩)

/-! ### Lemmas about `parsePairs` and `Parse` -/

theorem parsePairs_nil (acc : List (Str × Str)) : parsePairs [] acc = some acc := rfl

theorem parsePairs_cons (p : Str) (rest : List Str) (acc : List (Str × Str)) :
    parsePairs (p :: rest) acc =
      match splitN2 '=' p with
      | none => none
      | some kv =>
        if trimSpace kv.1 = [] then none
        else parsePairs rest (insertParam acc (trimSpace kv.1) (trimSpace kv.2)) := rfl

theorem parsePairs_eq_none_iff (pairs : List Str) (acc : List (Str × Str)) :
    parsePairs pairs acc = none ↔ pairs.any pairBad = true := by
  induction pairs generalizing acc with
  | nil => simp [parsePairs_nil]
  | cons p rest ih =>
    rw [parsePairs_cons, List.any_cons]
    cases hs : splitN2 '=' p with
    | none => simp [pairBad, hs]
    | some kv =>
      by_cases hk : trimSpace kv.1 = []
      · simp [pairBad, hs, hk]
      · have hbad : pairBad p = false := by simp [pairBad, hs, hk]
        simp only [if_neg hk, hbad, Bool.false_or]
        exact ih _

theorem pairKey_of_split (p : Str) (kv : Str × Str) (h : splitN2 '=' p = some kv) :
    pairKey p = trimSpace kv.1 := by
  simp [pairKey, h]

theorem pairVal_of_split (p : Str) (kv : Str × Str) (h : splitN2 '=' p = some kv) :
    pairVal p = trimSpace kv.2 := by
  simp [pairVal, h]

theorem or_some_left {α : Type} (x : α) (o : Option α) : (some x).or o = some x := rfl

theorem or_none_left {α : Type} (o : Option α) : (none : Option α).or o = o := rfl

theorem parsePairs_lookup (pairs : List Str) (acc ps : List (Str × Str))
    (h : parsePairs pairs acc = some ps) (k : Str) :
    lookupParam ps k =
      ((pairs.reverse.find? (fun p => decide (pairKey p = k))).map pairVal).or
        (lookupParam acc k) := by
  induction pairs generalizing acc with
  | nil =>
    rw [parsePairs_nil] at h
    cases h
    simp
  | cons p rest ih =>
    cases hs : splitN2 '=' p with
    | none => simp [parsePairs_cons, hs] at h
    | some kv =>
      simp only [parsePairs_cons, hs] at h
      by_cases hk : trimSpace kv.1 = []
      · rw [if_pos hk] at h; cases h
      · rw [if_neg hk] at h
        have ihh := ih _ h
        rw [List.reverse_cons, List.find?_append, ihh]
        cases hfind : rest.reverse.find? (fun p => decide (pairKey p = k)) with
        | some q => rfl
        | none =>
          rw [Option.map_none', or_none_left, or_none_left]
          by_cases hpk : pairKey p = k
          · have hkk : trimSpace kv.1 = k := by
              rw [← pairKey_of_split p kv hs]; exact hpk
            have hfs : List.find? (fun p => decide (pairKey p = k)) [p] = some p := by
              simp [List.find?_cons, hpk]
            rw [hfs, Option.map_some', or_some_left, pairVal_of_split p kv hs,
              ← hkk, lookupParam_insertParam_self]
          · have hkk : k ≠ trimSpace kv.1 := by
              rw [← pairKey_of_split p kv hs]
              exact fun hc => hpk hc.symm
            have hfs : List.find? (fun p => decide (pairKey p = k)) [p] = none := by
              simp [List.find?_cons, hpk]
            rw [hfs, Option.map_none', or_none_left,
              lookupParam_insertParam_ne _ _ _ _ hkk]

theorem parsePairs_formatted (ps : List (Str × Str)) :
    ∀ acc : List (Str × Str),
    (∀ p ∈ ps, trimSpace p.1 = p.1 ∧ p.1 ≠ [] ∧ '=' ∉ p.1) →
    (∀ p ∈ ps, trimSpace p.2 = p.2) →
    (∀ p ∈ ps, ∀ q ∈ acc, q.1 ≠ p.1) →
    (ps.map (fun p => p.1)).Nodup →
    parsePairs (ps.map (fun p => p.1 ++ '=' :: p.2)) acc = some (acc ++ ps) := by
  induction ps with
  | nil => intro acc _ _ _ _; simp [parsePairs_nil]
  | cons p rest ih =>
    intro acc hkey hval hdisj hnodup
    obtain ⟨hk1, hk2, hk3⟩ := hkey p (List.mem_cons_self p rest)
    have hv1 := hval p (List.mem_cons_self p rest)
    rw [List.map_cons, parsePairs_cons, splitN2_append '=' p.1 p.2 hk3]
    simp only [hk1, hv1]
    rw [if_neg hk2]
    have hacc : insertParam acc p.1 p.2 = acc ++ [(p.1, p.2)] :=
      insertParam_of_not_bound acc p.1 p.2 (fun q hq => hdisj p (List.mem_cons_self p rest) q hq)
    rw [hacc]
    have hrest := ih (acc ++ [(p.1, p.2)])
      (fun q hq => hkey q (List.mem_cons_of_mem p hq))
      (fun q hq => hval q (List.mem_cons_of_mem p hq))
      ?_ ?_
    · rw [hrest, List.append_assoc]
      simp
    · intro r hr q hq
      rcases List.mem_append.mp hq with hq1 | hq2
      · exact hdisj r (List.mem_cons_of_mem p hr) q hq1
      · rw [List.mem_singleton] at hq2
        subst hq2
        simp only []
        rw [List.map_cons, List.nodup_cons] at hnodup
        intro hcontra
        exact hnodup.1 (hcontra ▸ List.mem_map_of_mem (fun p => p.1) hr)
    · rw [List.map_cons, List.nodup_cons] at hnodup
      exact hnodup.2

theorem Parse_def (raw : Str) :
    Parse raw =
      (if trimSpace raw = [] then none
       else
        match splitN2 ':' (trimSpace raw) with
        | none => none
        | some tp =>
          if trimSpace tp.1 = [] then none
          else if tp.2 = [] then some ⟨trimSpace tp.1, []⟩
          else
            match parsePairs (splitChar ';' tp.2) [] with
            | none => none
            | some ps => some ⟨trimSpace tp.1, ps⟩) := rfl

theorem Parse_some_of (raw t rest : Str) (ps : List (Str × Str))
    (h : splitN2 ':' (trimSpace raw) = some (t, rest))
    (ht : trimSpace t ≠ []) (hrest : rest ≠ [])
    (hp : parsePairs (splitChar ';' rest) [] = some ps) :
    Parse raw = some ⟨trimSpace t, ps⟩ := by
  rw [Parse_def]
  simp only [if_neg (splitN2_some_ne_nil ':' _ _ h), h, if_neg ht,
    if_neg hrest, hp]

theorem Parse_some_empty_params (raw t : Str)
    (h : splitN2 ':' (trimSpace raw) = some (t, []))
    (ht : trimSpace t ≠ []) :
    Parse raw = some ⟨trimSpace t, []⟩ := by
  rw [Parse_def]
  simp [if_neg (splitN2_some_ne_nil ':' _ _ h), h, if_neg ht]

theorem Parse_params_of (raw t rest : Str) (m : Message)
    (h : splitN2 ':' (trimSpace raw) = some (t, rest))
    (hrest : rest ≠ []) (hm : Parse raw = some m) :
    m.type = trimSpace t ∧
      parsePairs (splitChar ';' rest) [] = some m.Params := by
  rw [Parse_def] at hm
  simp only [if_neg (splitN2_some_ne_nil ':' _ _ h), h] at hm
  by_cases ht : trimSpace t = []
  · rw [if_pos ht] at hm; cases hm
  · rw [if_neg ht, if_neg hrest] at hm
    cases hp : parsePairs (splitChar ';' rest) [] with
    | none => rw [hp] at hm; cases hm
    | some ps =>
      rw [hp] at hm
      simp only [Option.some.injEq] at hm
      subst hm
      exact ⟨rfl, rfl⟩

theorem Parse_eq_none_iff (raw : Str) :
    Parse raw = none ↔ specParseRejects raw = true := by
  by_cases hr : trimSpace raw = []
  · rw [Parse_def]
    unfold specParseRejects
    rw [hr]
    simp [splitN2]
  · cases h : splitN2 ':' (trimSpace raw) with
    | none =>
      rw [Parse_def]
      unfold specParseRejects
      simp [if_neg hr, h]
    | some tp =>
      obtain ⟨t, rest⟩ := tp
      rw [Parse_def]
      unfold specParseRejects
      simp only [if_neg hr, h]
      by_cases h1 : trimSpace t = []
      · simp [h1]
      · by_cases h2 : rest = []
        · subst h2
          simp [h1]
        · cases hp : parsePairs (splitChar ';' rest) [] with
          | none =>
            have hbad := (parsePairs_eq_none_iff (splitChar ';' rest) []).mp hp
            simp [h1, h2, hp, hbad]
          | some ps =>
            have hno : ¬(splitChar ';' rest).any pairBad = true := by
              intro hcontra
              rw [← parsePairs_eq_none_iff _ ([] : List (Str × Str))] at hcontra
              rw [hcontra] at hp
              cases hp
            simp [h1, h2, hp, hno]

/-! ### Lemmas about the context store -/

theorem lookupParam_filter_ne_self {α : Type} (ps : List (Str × α)) (c : Str) :
    lookupParam (ps.filter (fun p => decide (p.1 ≠ c))) c = none := by
  rw [lookupParam_eq_none_iff]
  intro p hp
  exact of_decide_eq_true (List.mem_filter.mp hp).2

theorem lookupParam_filter_ne_other {α : Type} (ps : List (Str × α))
    (k k' : Str) (h : k' ≠ k) :
    lookupParam (ps.filter (fun p => decide (p.1 ≠ k))) k' = lookupParam ps k' := by
  induction ps with
  | nil => rfl
  | cons p rest ih =>
    rw [List.filter_cons]
    by_cases hp : p.1 = k
    · have hd : decide (p.1 ≠ k) = false := by simp [hp]
      rw [hd]
      have hpk : ¬p.1 = k' := by rw [hp]; exact fun hc => h hc.symm
      rw [if_neg (by simp), lookupParam_cons, if_neg hpk]
      exact ih
    · have hd : decide (p.1 ≠ k) = true := by simp [hp]
      rw [hd, if_pos rfl, lookupParam_cons, lookupParam_cons]
      by_cases hpk : p.1 = k'
      · rw [if_pos hpk, if_pos hpk]
      · rw [if_neg hpk, if_neg hpk]
        exact ih

theorem mem_of_lookupParam {α : Type} (ps : List (Str × α)) (c : Str) (x : α)
    (h : lookupParam ps c = some x) : (c, x) ∈ ps := by
  induction ps with
  | nil => cases h
  | cons p rest ih =>
    rw [lookupParam_cons] at h
    by_cases hp : p.1 = c
    · rw [if_pos hp] at h
      simp only [Option.some.injEq] at h
      subst h
      rw [← hp]
      exact List.mem_cons_self p rest
    · rw [if_neg hp] at h
      exact List.mem_cons_of_mem p (ih h)

theorem lookupParam_of_mem_nodup {α : Type} (ps : List (Str × α)) (c : Str)
    (x : α) (hnodup : (ps.map (fun p => p.1)).Nodup) (hmem : (c, x) ∈ ps) :
    lookupParam ps c = some x := by
  induction ps with
  | nil => cases hmem
  | cons p rest ih =>
    rw [List.map_cons, List.nodup_cons] at hnodup
    rw [lookupParam_cons]
    rcases List.mem_cons.mp hmem with heq | hmem'
    · rw [← heq]
      exact if_pos rfl
    · have hp : ¬p.1 = c := by
        intro hcontra
        exact hnodup.1 (hcontra ▸ List.mem_map_of_mem (fun p => p.1)
          (by exact hmem' : (c, x) ∈ rest))
      rw [if_neg hp]
      exact ih hnodup.2 hmem'

theorem get_set_self (s : ContextStore) (c k v : Str) :
    (s.set c k v).get c k = (v, true) := by
  unfold ContextStore.set ContextStore.get
  simp only [lookupParam_insertParam_self]

theorem get_set_other_client (s : ContextStore) (c c' k k' v : Str)
    (h : c' ≠ c) : (s.set c k v).get c' k' = s.get c' k' := by
  unfold ContextStore.set ContextStore.get
  simp only [lookupParam_insertParam_ne _ _ _ _ h]

theorem getAll_set_other_client (s : ContextStore) (c c' k v : Str)
    (h : c' ≠ c) : (s.set c k v).getAll c' = s.getAll c' := by
  unfold ContextStore.set ContextStore.getAll
  simp only [lookupParam_insertParam_ne _ _ _ _ h]

theorem get_set_other_key (s : ContextStore) (c k k' v : Str) (h : k' ≠ k) :
    (s.set c k v).get c k' = s.get c k' := by
  unfold ContextStore.set ContextStore.get
  simp only [lookupParam_insertParam_self, lookupParam_insertParam_ne _ _ _ _ h]
  cases hc : lookupParam s.contexts c with
  | none => simp [lookupParam]
  | some values => simp

theorem getAll_setMultiple_other_client (s : ContextStore) (c c' : Str)
    (values : List (Str × Str)) (h : c' ≠ c) :
    (s.setMultiple c values).getAll c' = s.getAll c' := by
  unfold ContextStore.setMultiple ContextStore.getAll
  simp only [lookupParam_insertParam_ne _ _ _ _ h]

theorem getAll_remove_other_client (s : ContextStore) (c c' k : Str)
    (h : c' ≠ c) : (s.remove c k).getAll c' = s.getAll c' := by
  unfold ContextStore.remove ContextStore.getAll
  cases hc : lookupParam s.contexts c with
  | none => rfl
  | some values => simp only [lookupParam_insertParam_ne _ _ _ _ h]

theorem get_remove_other_key (s : ContextStore) (c k k' : Str) (h : k' ≠ k) :
    (s.remove c k).get c k' = s.get c k' := by
  unfold ContextStore.remove ContextStore.get
  cases hc : lookupParam s.contexts c with
  | none => simp [hc]
  | some values =>
    simp only [hc, lookupParam_insertParam_self]
    rw [lookupParam_filter_ne_other _ _ _ h]

theorem getAll_clear_other_client (s : ContextStore) (c c' : Str)
    (h : c' ≠ c) : (s.clear c).getAll c' = s.getAll c' := by
  unfold ContextStore.clear ContextStore.getAll
  exact lookupParam_filter_ne_other _ _ _ h

theorem get_clear_self (s : ContextStore) (c k : Str) :
    (s.clear c).get c k = ([], false) := by
  unfold ContextStore.clear ContextStore.get
  simp only [lookupParam_filter_ne_self]

theorem get_absent_client (s : ContextStore) (c k : Str)
    (h : lookupParam s.contexts c = none) : s.get c k = ([], false) := by
  unfold ContextStore.get
  rw [h]

theorem get_absent_key (s : ContextStore) (c k : Str)
    (values : List (Str × Str)) (h : lookupParam s.contexts c = some values)
    (h2 : lookupParam values k = none) : s.get c k = ([], false) := by
  unfold ContextStore.get
  simp only [h, h2]

theorem get_foldl_set_not_mem (params : List (Str × Str)) (store : ContextStore)
    (c k : Str) (hk : ∀ p ∈ params, p.1 ≠ k) :
    (params.foldl (fun st p => st.set c p.1 p.2) store).get c k = store.get c k := by
  induction params generalizing store with
  | nil => rfl
  | cons p rest ih =>
    rw [List.foldl_cons, ih _ (fun q hq => hk q (List.mem_cons_of_mem p hq))]
    exact get_set_other_key store c p.1 k p.2
      (fun hc => hk p (List.mem_cons_self p rest) hc.symm)

theorem get_foldl_set_mem (params : List (Str × Str)) (store : ContextStore)
    (c : Str) (hnodup : (params.map (fun p => p.1)).Nodup) (k v : Str)
    (hmem : (k, v) ∈ params) :
    (params.foldl (fun st p => st.set c p.1 p.2) store).get c k = (v, true) := by
  induction params generalizing store with
  | nil => cases hmem
  | cons p rest ih =>
    rw [List.map_cons, List.nodup_cons] at hnodup
    rw [List.foldl_cons]
    rcases List.mem_cons.mp hmem with heq | hmem'
    · subst heq
      have hrest : ∀ q ∈ rest, q.1 ≠ k := by
        intro q hq hcontra
        exact hnodup.1 (hcontra ▸ List.mem_map_of_mem (fun p => p.1) hq)
      rw [get_foldl_set_not_mem rest _ c k hrest]
      exact get_set_self store c k v
    · exact ih (store.set c p.1 p.2) hnodup.2 hmem'

theorem mem_queryClients_iff (s : ContextStore) (k v c : Str) (hwf : s.WF) :
    c ∈ s.queryClients k v ↔
      ∃ ctx, lookupParam s.contexts c = some ctx ∧ lookupParam ctx k = some v := by
  unfold ContextStore.queryClients
  constructor
  · intro hc
    rw [List.mem_map] at hc
    obtain ⟨entry, hentry, rfl⟩ := hc
    rw [List.mem_filter] at hentry
    refine ⟨entry.2, ?_, of_decide_eq_true hentry.2⟩
    exact lookupParam_of_mem_nodup _ _ _ hwf (Prod.mk.eta ▸ hentry.1)
  · rintro ⟨ctx, h1, h2⟩
    rw [List.mem_map]
    refine ⟨(c, ctx), ?_, rfl⟩
    rw [List.mem_filter]
    exact ⟨mem_of_lookupParam _ _ _ h1, decide_eq_true h2⟩

/-! ### Lemmas about `Format` and the round trip -/

theorem joinSep_singleton (sep : Char) (p : Str) : joinSep sep [p] = p := rfl

theorem joinSep_cons_cons (sep : Char) (p q : Str) (rest : List Str) :
    joinSep sep (p :: q :: rest) = p ++ sep :: joinSep sep (q :: rest) := rfl

theorem getLast?_append_cons (a b : Str) (c : Char) :
    (a ++ c :: b).getLast? = (c :: b).getLast? :=
  List.getLast?_append_of_ne_nil _ (by simp)

theorem getLast?_cons_of_ne_nil (c : Char) (b : Str) (h : b ≠ []) :
    (c :: b).getLast? = b.getLast? := by
  have hcb : c :: b = [c] ++ b := rfl
  rw [hcb]
  exact List.getLast?_append_of_ne_nil _ h

theorem getLast?_joinSep (sep : Char) (parts : List Str)
    (h : ∀ p ∈ parts, p ≠ []) (hne : parts ≠ []) :
    ∃ p ∈ parts, (joinSep sep parts).getLast? = p.getLast? := by
  induction parts with
  | nil => exact absurd rfl hne
  | cons p rest ih =>
    cases rest with
    | nil => exact ⟨p, List.mem_cons_self p [], rfl⟩
    | cons q rs =>
      obtain ⟨r, hr, heq⟩ := ih (fun x hx => h x (List.mem_cons_of_mem p hx)) (by simp)
      refine ⟨r, List.mem_cons_of_mem p hr, ?_⟩
      rw [joinSep_cons_cons, getLast?_append_cons,
        getLast?_cons_of_ne_nil _ _ (joinSep_ne_nil sep q rs
          (h q (List.mem_cons_of_mem p (List.mem_cons_self q rs)))), heq]

theorem getLast?_pairStr_not_space (k v : Str) (hv : trimSpace v = v) :
    ∀ c, (k ++ '=' :: v).getLast? = some c → goIsSpace c = false := by
  intro c hc
  rcases List.eq_nil_or_concat v with hv0 | ⟨a, d, hvd⟩
  · subst hv0
    rw [show k ++ '=' :: ([] : Str) = k ++ ['='] from rfl,
      List.getLast?_concat] at hc
    have hce : c = '=' := (Option.some.inj hc).symm
    subst hce
    decide
  · rw [List.concat_eq_append] at hvd
    subst hvd
    rw [show k ++ '=' :: (a ++ [d]) = (k ++ '=' :: a) ++ [d] from by simp,
      List.getLast?_concat] at hc
    have hce : c = d := (Option.some.inj hc).symm
    subst hce
    exact last_not_space_of_trimSpace a _ hv

theorem trimSpace_Format (m : Message) (hne : m.type ≠ [])
    (hty : trimSpace m.type = m.type)
    (hvals : ∀ p ∈ m.Params, trimSpace p.2 = p.2) :
    trimSpace m.Format = m.Format := by
  apply trimSpace_eq_self_of_edges
  · intro c hc
    obtain ⟨x, xs, hx⟩ := List.exists_cons_of_ne_nil hne
    unfold Message.Format at hc
    rw [hx] at hc
    simp only [List.cons_append, List.head?_cons, Option.some.injEq] at hc
    subst hc
    exact head_not_space_of_trimSpace x xs (hx ▸ hty)
  · intro c hc
    unfold Message.Format at hc
    cases hps : m.Params with
    | nil =>
      rw [hps] at hc
      rw [show m.type ++ ':' :: joinSep ';'
            (List.map (fun p : Str × Str => p.1 ++ '=' :: p.2) []) =
          m.type ++ [':'] from rfl, List.getLast?_concat] at hc
      have hce : c = ':' := (Option.some.inj hc).symm
      subst hce
      decide
    | cons p rest =>
      rw [hps, List.map_cons] at hc
      rw [getLast?_append_cons,
        getLast?_cons_of_ne_nil _ _ (joinSep_ne_nil ';' _ _ (by simp))] at hc
      have hparts : ∀ x ∈ (p.1 ++ '=' :: p.2) ::
          List.map (fun p => p.1 ++ '=' :: p.2) rest, x ≠ [] := by
        intro x hx
        rcases List.mem_cons.mp hx with rfl | hx'
        · simp
        · obtain ⟨q, _, rfl⟩ := List.mem_map.mp hx'
          simp
      obtain ⟨r, hr, heq⟩ := getLast?_joinSep ';' _ hparts (by simp)
      rw [heq] at hc
      have hrmem : r ∈ List.map (fun p => p.1 ++ '=' :: p.2) (p :: rest) := by
        rw [List.map_cons]
        exact hr
      obtain ⟨q, hq, rfl⟩ := List.mem_map.mp hrmem
      exact getLast?_pairStr_not_space q.1 q.2
        (hvals q (hps ▸ hq)) c hc

theorem Parse_Format_eq (m : Message) (hne : m.type ≠ [])
    (hty : trimSpace m.type = m.type) (hcolon : ':' ∉ m.type)
    (hkeys : ∀ p ∈ m.Params,
      p.1 ≠ [] ∧ trimSpace p.1 = p.1 ∧ ';' ∉ p.1 ∧ '=' ∉ p.1)
    (hvals : ∀ p ∈ m.Params, trimSpace p.2 = p.2 ∧ ';' ∉ p.2)
    (hnodup : (m.Params.map (fun p => p.1)).Nodup) :
    Parse m.Format = some m := by
  have htrim : trimSpace m.Format = m.Format :=
    trimSpace_Format m hne hty (fun p hp => (hvals p hp).1)
  have hfmt : m.Format =
      m.type ++ ':' :: joinSep ';' (m.Params.map (fun p => p.1 ++ '=' :: p.2)) := rfl
  have hsplit : splitN2 ':' (trimSpace m.Format) =
      some (m.type, joinSep ';' (m.Params.map (fun p => p.1 ++ '=' :: p.2))) := by
    rw [htrim, hfmt]
    exact splitN2_append ':' _ _ hcolon
  have htne : trimSpace m.type ≠ [] := by rw [hty]; exact hne
  cases hps : m.Params with
  | nil =>
    rw [hps] at hsplit
    have hP := Parse_some_empty_params m.Format m.type (by exact hsplit) htne
    rw [hP, hty, ← hps]
  | cons p rest =>
    have hjne : joinSep ';' (m.Params.map (fun p => p.1 ++ '=' :: p.2)) ≠ [] := by
      rw [hps, List.map_cons]
      exact joinSep_ne_nil ';' _ _ (by simp)
    have hsepfree : ∀ x ∈ m.Params.map (fun p => p.1 ++ '=' :: p.2), ';' ∉ x := by
      intro x hx
      obtain ⟨q, hq, rfl⟩ := List.mem_map.mp hx
      intro hmem
      rcases List.mem_append.mp hmem with h1 | h2
      · exact (hkeys q hq).2.2.1 h1
      · rcases List.mem_cons.mp h2 with heq | h3
        · cases heq
        · exact (hvals q hq).2 h3
    have hsplitchar : splitChar ';' (joinSep ';'
        (m.Params.map (fun p => p.1 ++ '=' :: p.2))) =
        m.Params.map (fun p => p.1 ++ '=' :: p.2) :=
      splitChar_joinSep ';' _ hsepfree (by rw [hps, List.map_cons]; simp)
    have hpp : parsePairs (m.Params.map (fun p => p.1 ++ '=' :: p.2)) [] =
        some m.Params := by
      have := parsePairs_formatted m.Params []
        (fun q hq => ⟨(hkeys q hq).2.1, (hkeys q hq).1, (hkeys q hq).2.2.2⟩)
        (fun q hq => (hvals q hq).1)
        (fun q _ r hr => absurd hr (List.not_mem_nil r))
        hnodup
      rw [this]
      simp
    have := Parse_some_of m.Format m.type _ m.Params hsplit htne hjne
      (by rw [hsplitchar]; exact hpp)
    rw [this, hty]

theorem or_none_right {α : Type} (o : Option α) : o.or none = o := by
  cases o <;> rfl

/-- `Parse` on a line `t ++ sep :: rest` with a well-formed tag `t`:
the result depends on `t` only through the returned message type. -/
theorem Parse_tag_line (t rest : Str) (hne : t ≠ []) (ht : trimSpace t = t)
    (hcolon : ':' ∉ t) :
    Parse (t ++ ':' :: rest) =
      (if trimRight rest = [] then some ⟨t, []⟩
       else
        match parsePairs (splitChar ';' (trimRight rest)) [] with
        | none => none
        | some ps => some ⟨t, ps⟩) := by
  have hio : trimSpace (t ++ ':' :: rest) = t ++ ':' :: trimRight rest :=
    trimSpace_append_colon t rest ht hne ':' (by decide)
  rw [Parse_def, hio]
  simp only [if_neg (show ¬(t ++ ':' :: trimRight rest = []) by simp),
    splitN2_append ':' t (trimRight rest) hcolon, ht, if_neg hne]

/-! ### The claims -/

/-- C3: `Parse` rejects `""`, `"NoColonHere"`, `"TYPE:key"` and
`"TYPE:=value"`, accepts `"TYPE:"` with type `TYPE` and zero parameters,
and in general fails exactly when the trimmed input is empty, contains no
`:`, has an empty type portion after trimming, or has non-empty parameter
text containing a pair with no `=` or with an empty (trimmed) key — the
condition captured by `specParseRejects`. -/
theorem C3_parse_error_cases :
    Parse [] = none ∧
    Parse ['N', 'o', 'C', 'o', 'l', 'o', 'n', 'H', 'e', 'r', 'e'] = none ∧
    Parse ['T', 'Y', 'P', 'E', ':', 'k', 'e', 'y'] = none ∧
    Parse ['T', 'Y', 'P', 'E', ':', '=', 'v', 'a', 'l', 'u', 'e'] = none ∧
    Parse ['T', 'Y', 'P', 'E', ':'] = some ⟨['T', 'Y', 'P', 'E'], []⟩ ∧
    (∀ raw : Str, Parse raw = none ↔ specParseRejects raw = true) :=
  ⟨by decide, by decide, by decide, by decide, by decide, Parse_eq_none_iff⟩

/-- C4: message dispatch — a PING message produces exactly one PONG
response carrying the current Unix time under `time` and leaves the store
unchanged; a CONTEXT message stores every parameter pair under the
connection id and produces exactly one ACK response with `status=ok`; any
other type produces no response and leaves the store unchanged. -/
theorem C4_dispatch (connID : Str) (now : Int) (store : ContextStore)
    (msg : Message) :
    (msg.type = TypePing →
      handleMessage connID now store msg =
        (store, [⟨TypePong, [(strTime, intToStr now)]⟩])) ∧
    (msg.type = TypeContext →
      (handleMessage connID now store msg).2 = [⟨TypeAck, [(strStatus, strOk)]⟩] ∧
      ((msg.Params.map (fun p => p.1)).Nodup → ∀ k v, (k, v) ∈ msg.Params →
        ((handleMessage connID now store msg).1).get connID k = (v, true))) ∧
    (msg.type ≠ TypePing → msg.type ≠ TypeContext →
      handleMessage connID now store msg = (store, [])) := by
  refine ⟨?_, ?_, ?_⟩
  · intro h
    unfold handleMessage
    rw [if_pos h]
  · intro h
    unfold handleMessage
    rw [if_neg (by rw [h]; decide), if_pos h]
    refine ⟨rfl, ?_⟩
    intro hnodup k v hmem
    exact get_foldl_set_mem msg.Params store connID hnodup k v hmem
  · intro h1 h2
    unfold handleMessage
    rw [if_neg h1, if_neg h2]

/-- Witness for C4 at concrete inputs: a PING and a CONTEXT message. -/
theorem C4_dispatch_witness :
    handleMessage ['c'] 5 NewContextStore ⟨TypePing, []⟩ =
      (NewContextStore, [⟨TypePong, [(strTime, intToStr 5)]⟩]) ∧
    ((handleMessage ['c'] 5 NewContextStore
        ⟨TypeContext, [(['n'], ['a'])]⟩).1).get ['c'] ['n'] = (['a'], true) :=
  ⟨(C4_dispatch ['c'] 5 NewContextStore ⟨TypePing, []⟩).1 rfl,
   ((C4_dispatch ['c'] 5 NewContextStore ⟨TypeContext, [(['n'], ['a'])]⟩).2.1
      rfl).2 (by decide) ['n'] ['a'] (by decide)⟩

/-- C5: the store get/set/clear contract — `Set` then `Get` returns
`(value, true)`; `Clear` then `Get` returns `("", false)`; and `Get`
returns `found = false` when the client or the key is absent. -/
theorem C5_store_contract (s : ContextStore) (clientID key value : Str) :
    (s.set clientID key value).get clientID key = (value, true) ∧
    (s.clear clientID).get clientID key = ([], false) ∧
    (lookupParam s.contexts clientID = none →
      s.get clientID key = ([], false)) ∧
    (∀ values, lookupParam s.contexts clientID = some values →
      lookupParam values key = none → s.get clientID key = ([], false)) :=
  ⟨get_set_self s clientID key value,
   get_clear_self s clientID key,
   get_absent_client s clientID key,
   fun values h h2 => get_absent_key s clientID key values h h2⟩

/-- Witness for C5 at concrete inputs. -/
theorem C5_store_contract_witness :
    ((NewContextStore).set ['A'] ['x'] ['1']).get ['A'] ['x'] = (['1'], true) ∧
    ((NewContextStore).clear ['A']).get ['A'] ['x'] = ([], false) ∧
    NewContextStore.get ['A'] ['x'] = ([], false) :=
  ⟨(C5_store_contract NewContextStore ['A'] ['x'] ['1']).1,
   (C5_store_contract NewContextStore ['A'] ['x'] ['1']).2.1,
   (C5_store_contract NewContextStore ['A'] ['x'] ['1']).2.2.1 rfl⟩

/-- C10: per-client isolation — `Set`, `SetMultiple`, `Remove` and `Clear`
on one client leave every other client's context unchanged, and `Set` and
`Remove` of one key leave every other key of the same client unchanged. -/
theorem C10_per_client_isolation (s : ContextStore) (c c' k k' v : Str)
    (values : List (Str × Str)) (hcl : c' ≠ c) (hk : k' ≠ k) :
    ((s.set c k v).getAll c' = s.getAll c') ∧
    ((s.setMultiple c values).getAll c' = s.getAll c') ∧
    ((s.remove c k).getAll c' = s.getAll c') ∧
    ((s.clear c).getAll c' = s.getAll c') ∧
    ((s.set c k v).get c k' = s.get c k') ∧
    ((s.remove c k).get c k' = s.get c k') :=
  ⟨getAll_set_other_client s c c' k v hcl,
   getAll_setMultiple_other_client s c c' values hcl,
   getAll_remove_other_client s c c' k hcl,
   getAll_clear_other_client s c c' hcl,
   get_set_other_key s c k k' v hk,
   get_remove_other_key s c k k' hk⟩

/-- Witness for C10 at concrete inputs. -/
theorem C10_per_client_isolation_witness :
    ((NewContextStore.set ['A'] ['x'] ['1']).set ['B'] ['x'] ['2']).getAll ['A'] =
      (NewContextStore.set ['A'] ['x'] ['1']).getAll ['A'] ∧
    ((NewContextStore.set ['A'] ['x'] ['1']).remove ['A'] ['x']).get ['A'] ['y'] =
      (NewContextStore.set ['A'] ['x'] ['1']).get ['A'] ['y'] :=
  ⟨(C10_per_client_isolation (NewContextStore.set ['A'] ['x'] ['1'])
      ['B'] ['A'] ['x'] ['y'] ['2'] [] (by decide) (by decide)).1,
   (C10_per_client_isolation (NewContextStore.set ['A'] ['x'] ['1'])
      ['A'] ['B'] ['x'] ['y'] ['1'] [] (by decide) (by decide)).2.2.2.2.2⟩

/-- C6: `QueryClients` exactness — for a well-formed store a client is in
`QueryClients key value` exactly when its context maps `key` to `value`,
and on the concrete store A=\x7bx:1\x7d, B=\x7bx:1\x7d, C=\x7bx:2\x7d,
`QueryClients x 1` returns exactly A and B. -/
theorem C6_queryClients_exact (s : ContextStore) (key value c : Str) :
    (s.WF → (c ∈ s.queryClients key value ↔
      ∃ ctx, lookupParam s.contexts c = some ctx ∧
        lookupParam ctx key = some value)) ∧
    (((NewContextStore.set ['A'] ['x'] ['1']).set ['B'] ['x'] ['1']).set
        ['C'] ['x'] ['2']).queryClients ['x'] ['1'] = [['A'], ['B']] :=
  ⟨fun hwf => mem_queryClients_iff s key value c hwf, by decide⟩

/-- Witness for C6: the membership characterization applied on the
concrete three-client store. -/
theorem C6_queryClients_exact_witness :
    ['A'] ∈ ((((NewContextStore.set ['A'] ['x'] ['1']).set ['B'] ['x'] ['1']).set
      ['C'] ['x'] ['2']).queryClients ['x'] ['1']) :=
  ((C6_queryClients_exact (((NewContextStore.set ['A'] ['x'] ['1']).set
      ['B'] ['x'] ['1']).set ['C'] ['x'] ['2']) ['x'] ['1'] ['A']).1
    (by unfold ContextStore.WF; decide)).mpr ⟨[(['x'], ['1'])], by decide, by decide⟩

/-- C7: `ValidateMessageType` accepts exactly the five tags PING, PONG,
CONTEXT, ACK, ERROR; and an unrecognized tag is never by itself a parse
error — for a fixed parameter section, the success of `Parse` does not
depend on the (well-formed) tag in front of it. -/
theorem C7_validate_and_tags (t : Str) :
    (ValidateMessageType t = true ↔
      (t = TypePing ∨ t = TypePong ∨ t = TypeContext ∨ t = TypeAck ∨
        t = TypeError)) ∧
    (∀ t₁ t₂ rest : Str, t₁ ≠ [] → trimSpace t₁ = t₁ → ':' ∉ t₁ →
      t₂ ≠ [] → trimSpace t₂ = t₂ → ':' ∉ t₂ →
      ((Parse (t₁ ++ ':' :: rest)).isSome ↔
        (Parse (t₂ ++ ':' :: rest)).isSome)) := by
  constructor
  · unfold ValidateMessageType
    simp [List.mem_cons]
  · intro t₁ t₂ rest h1 h2 h3 h4 h5 h6
    rw [Parse_tag_line t₁ rest h1 h2 h3, Parse_tag_line t₂ rest h4 h5 h6]
    by_cases hr : trimRight rest = []
    · rw [if_pos hr, if_pos hr]
      simp
    · rw [if_neg hr, if_neg hr]
      cases parsePairs (splitChar ';' (trimRight rest)) [] <;> simp

/-- Witness for C7: the unrecognized tag FOO parses whenever PING does. -/
theorem C7_validate_and_tags_witness :
    ValidateMessageType TypePing = true ∧
    ValidateMessageType ['F', 'O', 'O'] = false ∧
    ((Parse (['F', 'O', 'O'] ++ ':' :: ['a', '=', 'b'])).isSome ↔
      (Parse (TypePing ++ ':' :: ['a', '=', 'b'])).isSome) :=
  ⟨(C7_validate_and_tags TypePing).1.mpr (Or.inl rfl),
   by decide,
   (C7_validate_and_tags []).2 ['F', 'O', 'O'] TypePing ['a', '=', 'b']
     (by decide) (by decide) (by decide) (by decide) (by decide) (by decide)⟩

/-- C9: duplicate parameter keys — when every candidate pair of the
parameter section is well-formed, `Parse` succeeds even if a (trimmed) key
occurs in several pairs, and the resulting message maps each key to the
value of its last occurrence in the line. -/
theorem C9_duplicate_keys_last_wins (raw t rest : Str)
    (hsplit : splitN2 ':' (trimSpace raw) = some (t, rest))
    (htype : trimSpace t ≠ []) (hne : rest ≠ [])
    (hgood : ∀ p ∈ splitChar ';' rest,
      (splitN2 '=' p).isSome ∧ pairKey p ≠ []) :
    (Parse raw).isSome ∧
    ∀ k, parsedLookup raw k =
      ((splitChar ';' rest).reverse.find?
        (fun p => decide (pairKey p = k))).map pairVal := by
  have hnobad : ¬(splitChar ';' rest).any pairBad = true := by
    simp only [List.any_eq_true, not_exists]
    intro p hp
    obtain ⟨hsome, hkey⟩ := hgood p hp.1
    exfalso
    cases hs : splitN2 '=' p with
    | none => rw [hs] at hsome; cases hsome
    | some kv =>
      have hbad := hp.2
      unfold pairBad at hbad
      rw [hs] at hbad
      have : trimSpace kv.1 = [] := of_decide_eq_true hbad
      rw [pairKey_of_split p kv hs] at hkey
      exact hkey this
  cases hp : parsePairs (splitChar ';' rest) [] with
  | none => exact absurd ((parsePairs_eq_none_iff _ _).mp hp) hnobad
  | some ps =>
    have hP := Parse_some_of raw t rest ps hsplit htype hne hp
    constructor
    · rw [hP]; rfl
    · intro k
      unfold parsedLookup
      rw [hP]
      simp only [Option.bind_some, Option.some_bind]
      have := parsePairs_lookup (splitChar ';' rest) [] ps hp k
      rw [this]
      exact or_none_right _

/-- Witness for C9: on `T:a=1;a=2` parsing succeeds and `a` is mapped to
`2`, the value of the last occurrence. -/
theorem C9_duplicate_keys_last_wins_witness :
    (Parse ['T', ':', 'a', '=', '1', ';', 'a', '=', '2']).isSome ∧
    parsedLookup ['T', ':', 'a', '=', '1', ';', 'a', '=', '2'] ['a'] =
      some ['2'] := by
  have h := C9_duplicate_keys_last_wins
    ['T', ':', 'a', '=', '1', ';', 'a', '=', '2'] ['T']
    ['a', '=', '1', ';', 'a', '=', '2'] (by decide) (by decide) (by decide)
    (by decide)
  exact ⟨h.1, (h.2 ['a']).trans (by decide)⟩

/-- C1 counterexample: the message with type `T` and single pair
`(k, " v")` satisfies the claim's hypotheses (non-empty type, keys and
values free of `:`, `;`, `=`), yet `Parse (Format m)` yields the pair
`(k, "v")` — the leading space of the value is trimmed away, so the
resulting pair set differs from the original. -/
theorem C1_roundtrip_counterexample :
    (['T'] : Str) ≠ [] ∧
    (∀ c ∈ (['k'] : Str), c ≠ ':' ∧ c ≠ ';' ∧ c ≠ '=') ∧
    (∀ c ∈ ([' ', 'v'] : Str), c ≠ ':' ∧ c ≠ ';' ∧ c ≠ '=') ∧
    Parse (Message.Format ⟨['T'], [(['k'], [' ', 'v'])]⟩) =
      some ⟨['T'], [(['k'], ['v'])]⟩ ∧
    ((['k'] : Str), ([' ', 'v'] : Str)) ∉ [((['k'] : Str), (['v'] : Str))] :=
  ⟨by decide, by decide, by decide, by decide, by decide⟩

/-- C1 (amended): the round trip `Parse (Format m) = some m` holds for
every message whose type tag is non-empty, free of `:` and of surrounding
whitespace, whose keys are non-empty, free of `:`, `;`, `=` and of
surrounding whitespace and pairwise distinct, and whose values are free of
`:`, `;`, `=` and of surrounding whitespace. -/
theorem C1_roundtrip_amended (m : Message) (hne : m.type ≠ [])
    (hty : trimSpace m.type = m.type) (hcolon : ':' ∉ m.type)
    (hkeys : ∀ p ∈ m.Params, p.1 ≠ [] ∧ trimSpace p.1 = p.1 ∧
      ':' ∉ p.1 ∧ ';' ∉ p.1 ∧ '=' ∉ p.1)
    (hvals : ∀ p ∈ m.Params, trimSpace p.2 = p.2 ∧
      ':' ∉ p.2 ∧ ';' ∉ p.2 ∧ '=' ∉ p.2)
    (hnodup : (m.Params.map (fun p => p.1)).Nodup) :
    Parse m.Format = some m :=
  Parse_Format_eq m hne hty hcolon
    (fun p hp => ⟨(hkeys p hp).1, (hkeys p hp).2.1,
      (hkeys p hp).2.2.2.1, (hkeys p hp).2.2.2.2⟩)
    (fun p hp => ⟨(hvals p hp).1, (hvals p hp).2.2.1⟩) hnodup

/-- Witness for the amended C1 on a concrete two-parameter message. -/
theorem C1_roundtrip_amended_witness :
    Parse (Message.Format ⟨TypeContext,
      [(['n', 'a', 'm', 'e'], ['a', 'l', 'i', 'c', 'e']),
       (['r', 'o', 'o', 'm'], ['4', '2'])]⟩) =
      some ⟨TypeContext,
      [(['n', 'a', 'm', 'e'], ['a', 'l', 'i', 'c', 'e']),
       (['r', 'o', 'o', 'm'], ['4', '2'])]⟩ :=
  C1_roundtrip_amended _ (by decide) (by decide) (by decide) (by decide)
    (by decide) (by decide)

/-- C2 counterexample: on the accepted line `T:k= v` the text between the
key/value separator and the end of the parameter section is `" v"`, but
the value stored under `k` is the trimmed `"v"` — values are not taken
fully verbatim. -/
theorem C2_verbatim_counterexample :
    splitN2 ':' (trimSpace ['T', ':', 'k', '=', ' ', 'v']) =
      some (['T'], ['k', '=', ' ', 'v']) ∧
    splitChar ';' ['k', '=', ' ', 'v'] = [['k', '=', ' ', 'v']] ∧
    splitN2 '=' ['k', '=', ' ', 'v'] = some (['k'], [' ', 'v']) ∧
    parsedLookup ['T', ':', 'k', '=', ' ', 'v'] ['k'] = some ['v'] ∧
    (['v'] : Str) ≠ [' ', 'v'] :=
  ⟨by decide, by decide, by decide, by decide, by decide⟩

/-- C2 (amended): for every accepted line the value stored under a pair's
trimmed key is exactly the trimmed text between the pair's first `=` and
the next pair separator (or the end of the section) — verbatim except for
whitespace trimming, with no other transformation. Stated for sections
whose trimmed pair keys are pairwise distinct (with duplicates only the
last occurrence is kept, see C9). -/
theorem C2_values_verbatim_after_trim (raw t rest : Str) (m : Message)
    (hp : Parse raw = some m)
    (hsplit : splitN2 ':' (trimSpace raw) = some (t, rest))
    (hne : rest ≠ [])
    (hnodup : ((splitChar ';' rest).map pairKey).Nodup) :
    ∀ p ∈ splitChar ';' rest,
      lookupParam m.Params (pairKey p) = some (pairVal p) := by
  intro p hp0
  obtain ⟨-, hpp⟩ := Parse_params_of raw t rest m hsplit hne hp
  have hlk := parsePairs_lookup (splitChar ';' rest) [] m.Params hpp (pairKey p)
  have hnil : lookupParam ([] : List (Str × Str)) (pairKey p) = none := rfl
  rw [hnil, or_none_right] at hlk
  rw [hlk]
  cases hfind : (splitChar ';' rest).reverse.find?
      (fun q => decide (pairKey q = pairKey p)) with
  | none =>
    exfalso
    rw [List.find?_eq_none] at hfind
    exact hfind p (List.mem_reverse.mpr hp0) (by simp)
  | some q =>
    have hqmem : q ∈ (splitChar ';' rest).reverse :=
      List.mem_of_find?_eq_some hfind
    have hq := List.find?_some hfind
    have hqkey : pairKey q = pairKey p := of_decide_eq_true hq
    have hqp : q = p :=
      List.inj_on_of_nodup_map hnodup (List.mem_reverse.mp hqmem) hp0 hqkey
    rw [Option.map_some', hqp]

/-- Witness for the amended C2 on the concrete line `T:a= x;b=y`. -/
theorem C2_values_verbatim_after_trim_witness :
    lookupParam [((['a'] : Str), (['x'] : Str)), (['b'], ['y'])]
      (pairKey ['a', '=', ' ', 'x']) = some (pairVal ['a', '=', ' ', 'x']) :=
  C2_values_verbatim_after_trim
    ['T', ':', 'a', '=', ' ', 'x', ';', 'b', '=', 'y'] ['T']
    ['a', '=', ' ', 'x', ';', 'b', '=', 'y']
    ⟨['T'], [(['a'], ['x']), (['b'], ['y'])]⟩
    (by decide) (by decide) (by decide) (by decide)
    ['a', '=', ' ', 'x'] (by decide)

end MCP

section Sanity
open MCP

example : Parse ('P' :: 'I' :: 'N' :: 'G' :: ':' :: []) = some ⟨TypePing, []⟩ := by decide

example : Parse ['T', ':', 'a', '=', '1', ';', 'b', '=', '2'] =
    some ⟨['T'], [(['a'], ['1']), (['b'], ['2'])]⟩ := by decide

example : Parse ['T', ':', 'k', '=', ' ', 'v'] = some ⟨['T'], [(['k'], ['v'])]⟩ := by decide

example : Parse [] = none := by decide

example : Parse ['T', ':', 'k'] = none := by decide

example : Parse ['T', ':', '=', 'v'] = none := by decide

example : Parse ['T', ':', 'a', '=', '1', ';', 'a', '=', '2'] =
    some ⟨['T'], [(['a'], ['2'])]⟩ := by decide

example : (⟨['T'], [(['a'], ['1']), (['b'], ['2'])]⟩ : Message).Format =
    ['T', ':', 'a', '=', '1', ';', 'b', '=', '2'] := by decide

example : ValidateMessageType TypeAck = true := by decide

example : ValidateMessageType ['F', 'O', 'O'] = false := by decide

example : (NewContextStore.set ['A'] ['x'] ['1']).get ['A'] ['x'] = (['1'], true) := by decide

example : ((NewContextStore.set ['A'] ['x'] ['1']).clear ['A']).get ['A'] ['x'] =
    ([], false) := by decide

example :
    (((NewContextStore.set ['A'] ['x'] ['1']).set ['B'] ['x'] ['1']).set
      ['C'] ['x'] ['2']).queryClients ['x'] ['1'] = [['A'], ['B']] := by decide

example :
    handleMessage ['c'] 7 NewContextStore ⟨TypePing, []⟩ =
      (NewContextStore, [⟨TypePong, [(strTime, intToStr 7)]⟩]) := by decide

example :
    (handleMessage ['c'] 7 NewContextStore
      ⟨TypeContext, [(['n'], ['a'])]⟩).2 = [⟨TypeAck, [(strStatus, strOk)]⟩] := by decide

end Sanity
